import Mathlib

/-!
# Reconciliation loop of the bounty scraper (`scraper.go`)

A shallow embedding of the comparison, seeding and persistence functions of
`scraper.go`, together with the properties of the reconciliation loop.

Modelling conventions.

* Go `string` is `String`; a Go `[]string` is a `List String` (a nil slice and
  an empty slice are both `[]`, which is how every function below treats them).
* A MongoDB collection is the list of its documents in collection order.
  Documents of `bounties` are `Bounty` values and documents of `differences`
  are `Difference` values (the fields named in the `$set` documents are the
  ones the structs carry).
* `UpdateOne(filter, update)` rewrites the first document matching the filter
  and does nothing when there is none; with `SetUpsert(true)` it appends a new
  document built from the filter and the `$set` fields when there is none.
* Every store call can fail.  A failed `UpdateOne` leaves the collection as it
  was; a failed `InsertMany` has written a leading part of the batch.  The
  outcome of each call is an explicit argument (`true` = no error), and a list
  of outcomes that runs out means that the remaining calls succeed.
* "At most one document per project" is written
  `(collection.map Bounty.project).Nodup`.
* `fetchAssetLinksForBounty` is a network call; it is a function argument
  `links` from the bounty id to the resolved links.
-/

namespace Scraper

/-! ## Data model -/

/-- The Go struct `Bounty`. -/
structure Bounty where
  id : String
  project : String
  updatedDate : String
  assetLinks : List String
  deriving DecidableEq, Repr

/-- The Go struct `Difference`. -/
structure Difference where
  id : String
  project : String
  existingUpdatedDate : String
  newUpdatedDate : String
  linkDiff : List String
  deriving DecidableEq, Repr

/-! ## String slice helpers -/

/-- The index loop of `stringSlicesEqual`, run on two slices of equal length. -/
def stringSlicesEqualLoop : List String → List String → Bool
  | x :: xs, y :: ys => if x != y then false else stringSlicesEqualLoop xs ys
  | _, _ => true

/-- The Go function `stringSlicesEqual`. -/
def stringSlicesEqual (a b : List String) : Bool :=
  if a.length != b.length then false else stringSlicesEqualLoop a b

/-- The first loop of `stringDifference`: the Go map `mb`, as its lookup
function (a missing key reads as `false`). -/
def stringDifferenceSet (b : List String) : String → Bool :=
  b.foldl (fun mb x => fun y => if y = x then true else mb y) (fun _ => false)

/-- The Go function `stringDifference`. -/
def stringDifference (a b : List String) : List String :=
  let mb := stringDifferenceSet b
  a.foldl (fun diff x => if !mb x then diff ++ [x] else diff) []

/-! ## Comparison against the stored snapshot -/

/-- The loop of `compareWithExistingData` that fills the Go map `existingData`,
as its lookup function: a later document replaces an earlier one with the same
project. -/
def existingDataOf (existingDataList : List Bounty) : String → Option Bounty :=
  existingDataList.foldl
    (fun m item => fun k => if k = item.project then some item else m k)
    (fun _ => none)

/-- One iteration of the main loop of `compareWithExistingData`. -/
def compareStep (links : String → List String) (existingData : String → Option Bounty)
    (differences : List Difference) (item : Bounty) : List Difference :=
  let assetLinks := links item.id
  match existingData item.project with
  | some existingItem =>
    if existingItem.updatedDate != item.updatedDate
        || !stringSlicesEqual existingItem.assetLinks assetLinks then
      differences ++ [{ id := item.id
                        project := item.project
                        existingUpdatedDate := existingItem.updatedDate
                        newUpdatedDate := item.updatedDate
                        linkDiff := stringDifference assetLinks existingItem.assetLinks }]
    else differences
  | none => differences

/-- The Go function `compareWithExistingData`.  `readOk` is the outcome of
reading the `bounties` collection (`Find` and `cursor.All`); `bounties` is the
content of that collection. -/
def compareWithExistingData (links : String → List String) (newData : List Bounty)
    (readOk : Bool) (bounties : List Bounty) : List Difference :=
  if !readOk then []
  else newData.foldl (compareStep links (existingDataOf bounties)) []

/-! ## Writes to the `bounties` collection -/

/-- The store call `bountiesCollection.UpdateOne(filter, update)` of
`updateBountiesTable`, when it succeeds: the first document whose project is
`project` gets the two `$set` fields; no document is added. -/
def updateOneBounty (project updatedDate : String) (assetLinks : List String) :
    List Bounty → List Bounty
  | [] => []
  | doc :: docs =>
    if doc.project = project then
      { doc with updatedDate := updatedDate, assetLinks := assetLinks } :: docs
    else doc :: updateOneBounty project updatedDate assetLinks docs

/-- The Go function `updateBountiesTable`.  `oks` holds the outcome of the
`UpdateOne` call of each iteration; an error is logged and the loop goes on. -/
def updateBountiesTable (links : String → List String) :
    List Difference → List Bool → List Bounty → List Bounty
  | [], _, bounties => bounties
  | data :: rest, oks, bounties =>
    let assetLinks := links data.id
    let bounties1 :=
      if oks.headD true then updateOneBounty data.project data.newUpdatedDate assetLinks bounties
      else bounties
    updateBountiesTable links rest oks.tail bounties1

/-- The Go function `initializeBountiesTableIfEmpty`.  `countOk` is the outcome
of `CountDocuments`.  `inserted` is the outcome of `InsertMany`: `none` when it
returns no error, `some n` when it returns an error after `n` documents of the
batch were written. -/
def initializeBountiesTableIfEmpty (links : String → List String) (bounties : List Bounty)
    (countOk : Bool) (inserted : Option Nat) (collection : List Bounty) : List Bounty :=
  if !countOk then collection
  else if collection.length == 0 then
    let resolved := bounties.map (fun b => { b with assetLinks := links b.id })
    match inserted with
    | none => collection ++ resolved
    | some n => collection ++ resolved.take n
  else collection

/-! ## Writes to the `differences` collection -/

/-- The store call `diffCollection.UpdateOne(filter, update, opts)` of
`insertIntoDiffTable` with `SetUpsert(true)`, when it succeeds. -/
def upsertDifference (diff : Difference) : List Difference → List Difference
  | [] =>
    [{ project := diff.project
       id := diff.id
       existingUpdatedDate := diff.existingUpdatedDate
       newUpdatedDate := diff.newUpdatedDate
       linkDiff := diff.linkDiff }]
  | doc :: docs =>
    if doc.project = diff.project then
      { doc with id := diff.id
                 existingUpdatedDate := diff.existingUpdatedDate
                 newUpdatedDate := diff.newUpdatedDate
                 linkDiff := diff.linkDiff } :: docs
    else doc :: upsertDifference diff docs

/-- The Go function `insertIntoDiffTable`.  `oks` holds the outcome of the
`UpdateOne` call of each iteration; an error is logged and the loop goes on. -/
def insertIntoDiffTable : List Difference → List Bool → List Difference → List Difference
  | [], _, log => log
  | diff :: rest, oks, log =>
    let log1 := if oks.headD true then upsertDifference diff log else log
    insertIntoDiffTable rest oks.tail log1

/-! ## The store calls of the persist step, in the order they are issued -/

/-- A write issued to the store, with the project it is filtered on and its
outcome. -/
inductive StoreCall where
  | differenceUpsert (project : String) (ok : Bool)
  | bountyUpdate (project : String) (ok : Bool)
  deriving DecidableEq, Repr

/-- The calls `insertIntoDiffTable` issues: one upsert per difference. -/
def insertIntoDiffTableCalls : List Difference → List Bool → List StoreCall
  | [], _ => []
  | diff :: rest, oks =>
    StoreCall.differenceUpsert diff.project (oks.headD true)
      :: insertIntoDiffTableCalls rest oks.tail

/-- The calls `updateBountiesTable` issues: one update per difference. -/
def updateBountiesTableCalls : List Difference → List Bool → List StoreCall
  | [], _ => []
  | data :: rest, oks =>
    StoreCall.bountyUpdate data.project (oks.headD true)
      :: updateBountiesTableCalls rest oks.tail

/-- The two collections of the database. -/
structure Db where
  bounties : List Bounty
  differences : List Difference
  deriving DecidableEq, Repr

/-- The persist step of `main`: `insertIntoDiffTable(differences, db)` followed
by `updateBountiesTable(differences, db)`; the database afterwards and the
store calls in the order they were issued. -/
def persist (links : String → List String) (differences : List Difference)
    (diffOks bountyOks : List Bool) (db : Db) : Db × List StoreCall :=
  let log := insertIntoDiffTable differences diffOks db.differences
  let bounties := updateBountiesTable links differences bountyOks db.bounties
  ({ bounties := bounties, differences := log },
   insertIntoDiffTableCalls differences diffOks ++ updateBountiesTableCalls differences bountyOks)

/-! ## Token extraction -/

/-- Reads the literal `lit` off the front of the input; the rest of the input
when it is there. -/
def stripLiteral : List Char → List Char → Option (List Char)
  | [], rest => some rest
  | _ :: _, [] => none
  | p :: ps, c :: cs => if c = p then stripLiteral ps cs else none

/-- A match of `/_next/static/([^/]+)/_buildManifest\.js` starting at the head
of the input; the captured group.  The group is followed by `/`, so it is the
whole run of characters other than `/` after the first literal. -/
def matchBuildManifestAt (cs : List Char) : Option (List Char) :=
  match stripLiteral "/_next/static/".toList cs with
  | none => none
  | some rest =>
    let token := rest.takeWhile (fun c => c != '/')
    let after := rest.dropWhile (fun c => c != '/')
    if token.isEmpty then none
    else
      match stripLiteral "/_buildManifest.js".toList after with
      | none => none
      | some _ => some token

/-- The leftmost match in the input (`FindStringSubmatch`). -/
def findBuildManifest : List Char → Option (List Char)
  | [] => none
  | c :: cs =>
    match matchBuildManifestAt (c :: cs) with
    | some token => some token
    | none => findBuildManifest cs

/-- The Go function `extractTokenFromSource`. -/
def extractTokenFromSource (source : String) : String :=
  match findBuildManifest source.toList with
  | some token => String.mk token
  | none => ""

/-! ## One iteration of the loop of `main` -/

/-- What the outside world answers during one cycle. -/
structure CycleEnv where
  /-- Result of `fetchSourceCode`; `none` is an error. -/
  fetchSourceCode : Option String
  /-- Result of `fetchDataUsingToken` for a token; `none` is an error. -/
  fetchDataUsingToken : String → Option (List Bounty)
  /-- Outcome of `connectToDatabase`. -/
  connectToDatabase : Bool
  /-- Result of `fetchAssetLinksForBounty`. -/
  links : String → List String
  countOk : Bool
  inserted : Option Nat
  readOk : Bool
  diffOks : List Bool
  bountyOks : List Bool

/-- Which branch a cycle took (the message it logs). -/
inductive CycleLog where
  | errorFetchingSourceCode
  | errorFetchingDataUsingToken
  | errorConnectingToDatabase
  | foundDifferences
  | noDifferencesFound
  deriving DecidableEq, Repr

/-- The state after a cycle, the branch taken, and the minutes slept before the
next cycle. -/
structure CycleResult where
  db : Db
  log : CycleLog
  sleepMinutes : Nat
  deriving DecidableEq, Repr

/-- The body of the `for` loop of `main`.  `initializeBountiesTableIfEmpty`
returns no error, so the check after it never fires; the links it writes into
the batch are not read by `compareWithExistingData`, which resolves them
again. -/
def mainCycle (env : CycleEnv) (db : Db) : CycleResult :=
  match env.fetchSourceCode with
  | none => { db := db, log := .errorFetchingSourceCode, sleepMinutes := 10 }
  | some sourceCode =>
    let token := extractTokenFromSource sourceCode
    match env.fetchDataUsingToken token with
    | none => { db := db, log := .errorFetchingDataUsingToken, sleepMinutes := 10 }
    | some bounties =>
      if !env.connectToDatabase then
        { db := db, log := .errorConnectingToDatabase, sleepMinutes := 10 }
      else
        let seeded : Db :=
          { db with bounties := initializeBountiesTableIfEmpty env.links bounties
                                  env.countOk env.inserted db.bounties }
        let differences := compareWithExistingData env.links bounties env.readOk seeded.bounties
        if differences.length > 0 then
          { db := (persist env.links differences env.diffOks env.bountyOks seeded).1
            log := .foundDifferences
            sleepMinutes := 10 }
        else { db := seeded, log := .noDifferencesFound, sleepMinutes := 10 }

/-! ## Histories of the `bounties` collection -/

/-- A write path of a cycle into the `bounties` collection, with what the
outside world answered. -/
inductive Op where
  | seed (links : String → List String) (bounties : List Bounty) (countOk : Bool)
      (inserted : Option Nat)
  | update (links : String → List String) (updatedData : List Difference) (oks : List Bool)

/-- The effect of one write path on the collection. -/
def applyOp : Op → List Bounty → List Bounty
  | .seed links bounties countOk inserted, collection =>
    initializeBountiesTableIfEmpty links bounties countOk inserted collection
  | .update links updatedData oks, collection =>
    updateBountiesTable links updatedData oks collection

/-- The effect of a sequence of write paths, oldest first. -/
def runOps (ops : List Op) (collection : List Bounty) : List Bounty :=
  ops.foldl (fun c op => applyOp op c) collection

/-- The batch a seeding attempt carries has pairwise distinct projects (nothing
is asked of an update). -/
def Op.distinctBatch : Op → Prop
  | .seed _ bounties _ _ => (bounties.map Bounty.project).Nodup
  | .update _ _ _ => True

/-- The identity of the documents of the collection, in order: `id` and
`project`, the fields no write path assigns. -/
def identities (collection : List Bounty) : List (String × String) :=
  collection.map (fun b => (b.id, b.project))

/-! ## The effect of a batch of updates on one document -/

/-- What a document becomes when every update of the batch filtered on its
project is applied to it, in order. -/
def applyToDoc (links : String → List String) (doc : Bounty) (updatedData : List Difference) :
    Bounty :=
  updatedData.foldl
    (fun r data =>
      if r.project = data.project then
        { r with updatedDate := data.newUpdatedDate, assetLinks := links data.id }
      else r)
    doc

/-! ## The comparison, item by item -/

/-- The record an iteration of the loop of `compareWithExistingData` appends
for `item`, if it appends one. -/
def differenceFor (links : String → List String) (existingData : String → Option Bounty)
    (item : Bounty) : Option Difference :=
  match existingData item.project with
  | some existingItem =>
    if existingItem.updatedDate != item.updatedDate
        || !stringSlicesEqual existingItem.assetLinks (links item.id) then
      some { id := item.id
             project := item.project
             existingUpdatedDate := existingItem.updatedDate
             newUpdatedDate := item.updatedDate
             linkDiff := stringDifference (links item.id) existingItem.assetLinks }
    else none
  | none => none

/-! ## Facts about the slice helpers -/

theorem stringSlicesEqualLoop_iff (a b : List String) (h : a.length = b.length) :
    stringSlicesEqualLoop a b = true ↔ a = b := by
  induction a generalizing b with
  | nil =>
    cases b with
    | nil => simp [stringSlicesEqualLoop]
    | cons y ys => simp at h
  | cons x xs ih =>
    cases b with
    | nil => simp at h
    | cons y ys =>
      have hl : xs.length = ys.length := by simpa using h
      by_cases hxy : x = y
      · subst hxy
        simp [stringSlicesEqualLoop, ih ys hl]
      · simp [stringSlicesEqualLoop, hxy]

theorem stringSlicesEqual_iff (a b : List String) :
    stringSlicesEqual a b = true ↔ a = b := by
  unfold stringSlicesEqual
  by_cases h : a.length = b.length
  · simp [h, stringSlicesEqualLoop_iff a b h]
  · have hne : a ≠ b := fun e => h (by rw [e])
    simp [h, hne]

theorem stringSlicesEqual_self (a : List String) : stringSlicesEqual a a = true :=
  (stringSlicesEqual_iff a a).2 rfl

theorem stringDifferenceSet_append (b : List String) (x y : String) :
    stringDifferenceSet (b ++ [x]) y = if y = x then true else stringDifferenceSet b y := by
  simp [stringDifferenceSet, List.foldl_append]

theorem stringDifferenceSet_eq (b : List String) (y : String) :
    stringDifferenceSet b y = decide (y ∈ b) := by
  induction b using List.reverseRecOn with
  | nil => simp [stringDifferenceSet]
  | append_singleton b x ih =>
    rw [stringDifferenceSet_append, ih]
    by_cases h : y = x <;> simp [h]

theorem foldl_append_if {α : Type} (p : α → Bool) (a : List α) (acc : List α) :
    a.foldl (fun diff x => if p x then diff ++ [x] else diff) acc = acc ++ a.filter p := by
  induction a generalizing acc with
  | nil => simp
  | cons x xs ih =>
    simp only [List.foldl_cons, List.filter_cons]
    cases hp : p x <;> simp [ih]

theorem stringDifference_eq_filter (a b : List String) :
    stringDifference a b = a.filter (fun x => decide (x ∉ b)) := by
  unfold stringDifference
  simp only []
  rw [foldl_append_if (fun x => !stringDifferenceSet b x) a []]
  simp [stringDifferenceSet_eq]

/-! ## Facts about the comparison -/

theorem existingDataOf_nil (k : String) : existingDataOf [] k = none := rfl

theorem existingDataOf_append (l : List Bounty) (r : Bounty) (k : String) :
    existingDataOf (l ++ [r]) k = if k = r.project then some r else existingDataOf l k := by
  simp [existingDataOf, List.foldl_append]

theorem existingDataOf_some (l : List Bounty) (k : String) (S : Bounty)
    (h : existingDataOf l k = some S) : S ∈ l ∧ S.project = k := by
  induction l using List.reverseRecOn with
  | nil => simp [existingDataOf_nil] at h
  | append_singleton l r ih =>
    rw [existingDataOf_append] at h
    by_cases hk : k = r.project
    · simp [hk] at h
      subst h
      simp [hk]
    · simp [hk] at h
      have := ih h
      exact ⟨List.mem_append_left _ this.1, this.2⟩

theorem existingDataOf_eq_none (l : List Bounty) (k : String) :
    existingDataOf l k = none ↔ ∀ r ∈ l, r.project ≠ k := by
  induction l using List.reverseRecOn with
  | nil => simp [existingDataOf_nil]
  | append_singleton l r ih =>
    rw [existingDataOf_append]
    by_cases hk : k = r.project
    · simp only [hk, if_true]
      constructor
      · intro h
        exact absurd h (by simp)
      · intro h
        exact absurd rfl (h r (by simp))
    · have hk2 : ¬ r.project = k := fun e => hk e.symm
      simp only [hk, if_false, ih]
      constructor
      · intro h x hx
        rcases List.mem_append.1 hx with hx | hx
        · exact h x hx
        · have : x = r := by simpa using hx
          rw [this]
          exact hk2
      · intro h x hx
        exact h x (List.mem_append_left _ hx)

theorem existingDataOf_of_mem (l : List Bounty) (hl : (l.map Bounty.project).Nodup)
    (S : Bounty) (hS : S ∈ l) : existingDataOf l S.project = some S := by
  induction l using List.reverseRecOn with
  | nil => simp at hS
  | append_singleton l r ih =>
    rw [existingDataOf_append]
    rw [List.map_append, List.nodup_append] at hl
    obtain ⟨hl1, -, hdis⟩ := hl
    rcases List.mem_append.1 hS with h | h
    · have hne : S.project ≠ r.project := by
        intro e
        exact hdis (List.mem_map_of_mem Bounty.project h) (by simp [e])
      simp [hne, ih hl1 h]
    · have : S = r := by simpa using h
      simp [this]

theorem compareStep_eq (links : String → List String) (m : String → Option Bounty)
    (acc : List Difference) (item : Bounty) :
    compareStep links m acc item = acc ++ (differenceFor links m item).toList := by
  unfold compareStep differenceFor
  cases m item.project with
  | none => simp
  | some e =>
    simp only []
    split <;> simp

theorem foldl_compareStep (links : String → List String) (m : String → Option Bounty)
    (newData : List Bounty) (acc : List Difference) :
    newData.foldl (compareStep links m) acc = acc ++ newData.filterMap (differenceFor links m) := by
  induction newData generalizing acc with
  | nil => simp
  | cons item rest ih =>
    rw [List.foldl_cons, ih, compareStep_eq, List.filterMap_cons]
    cases differenceFor links m item <;> simp

theorem compare_eq_filterMap (links : String → List String) (newData bounties : List Bounty) :
    compareWithExistingData links newData true bounties
      = newData.filterMap (differenceFor links (existingDataOf bounties)) := by
  simp [compareWithExistingData, foldl_compareStep]

theorem compare_read_failed (links : String → List String) (newData bounties : List Bounty) :
    compareWithExistingData links newData false bounties = [] := by
  simp [compareWithExistingData]

theorem compare_split (links : String → List String) (pre post : List Bounty) (item : Bounty)
    (bounties : List Bounty) :
    compareWithExistingData links (pre ++ item :: post) true bounties
      = compareWithExistingData links pre true bounties
        ++ compareWithExistingData links [item] true bounties
        ++ compareWithExistingData links post true bounties := by
  simp only [compare_eq_filterMap, List.filterMap_append]
  rw [show item :: post = [item] ++ post from rfl, List.filterMap_append, List.append_assoc]

theorem compare_single (links : String → List String) (item : Bounty) (bounties : List Bounty) :
    compareWithExistingData links [item] true bounties
      = (differenceFor links (existingDataOf bounties) item).toList := by
  rw [compare_eq_filterMap]
  cases h : differenceFor links (existingDataOf bounties) item <;> simp [List.filterMap_cons, h]

theorem differenceFor_isSome_iff (links : String → List String) (m : String → Option Bounty)
    (item : Bounty) :
    (differenceFor links m item).isSome = true ↔
      ∃ S, m item.project = some S ∧
        (item.updatedDate ≠ S.updatedDate ∨ links item.id ≠ S.assetLinks) := by
  unfold differenceFor
  cases hm : m item.project with
  | none => simp
  | some e =>
    simp only []
    by_cases hd : e.updatedDate = item.updatedDate
    · by_cases hlk : e.assetLinks = links item.id
      · have h1 := (stringSlicesEqual_iff e.assetLinks (links item.id)).2 hlk
        simp [hd, hlk, stringSlicesEqual_self]
      · have h1 : stringSlicesEqual e.assetLinks (links item.id) = false := by
          cases h : stringSlicesEqual e.assetLinks (links item.id) with
          | false => rfl
          | true => exact absurd ((stringSlicesEqual_iff _ _).1 h) hlk
        have hlk2 : ¬ links item.id = e.assetLinks := fun x => hlk x.symm
        simp [hd, h1, hlk2]
    · have hd2 : ¬ item.updatedDate = e.updatedDate := fun x => hd x.symm
      simp [hd, hd2]

theorem differenceFor_some (links : String → List String) (m : String → Option Bounty)
    (item : Bounty) (d : Difference) (h : differenceFor links m item = some d) :
    ∃ S, m item.project = some S ∧
      (item.updatedDate ≠ S.updatedDate ∨ links item.id ≠ S.assetLinks) ∧
      d = { id := item.id
            project := item.project
            existingUpdatedDate := S.updatedDate
            newUpdatedDate := item.updatedDate
            linkDiff := stringDifference (links item.id) S.assetLinks } := by
  have hs : (differenceFor links m item).isSome = true := by simp [h]
  obtain ⟨S, hS, hc⟩ := (differenceFor_isSome_iff links m item).1 hs
  refine ⟨S, hS, hc, ?_⟩
  unfold differenceFor at h
  rw [hS] at h
  simp only [] at h
  split at h
  · exact (Option.some.inj h).symm
  · exact absurd h (by simp)

theorem differenceFor_of_differs (links : String → List String) (m : String → Option Bounty)
    (item S : Bounty) (hS : m item.project = some S)
    (hc : item.updatedDate ≠ S.updatedDate ∨ links item.id ≠ S.assetLinks) :
    differenceFor links m item =
      some { id := item.id
             project := item.project
             existingUpdatedDate := S.updatedDate
             newUpdatedDate := item.updatedDate
             linkDiff := stringDifference (links item.id) S.assetLinks } := by
  have hs := (differenceFor_isSome_iff links m item).2 ⟨S, hS, hc⟩
  obtain ⟨d, hd⟩ := Option.isSome_iff_exists.1 hs
  obtain ⟨S2, hS2, -, hd2⟩ := differenceFor_some links m item d hd
  rw [hS] at hS2
  cases hS2
  rw [hd, hd2]

theorem differenceFor_eq_none (links : String → List String) (m : String → Option Bounty)
    (item : Bounty)
    (h : ∀ S, m item.project = some S →
      item.updatedDate = S.updatedDate ∧ links item.id = S.assetLinks) :
    differenceFor links m item = none := by
  cases hd : differenceFor links m item with
  | none => rfl
  | some d =>
    obtain ⟨S, hS, hc, -⟩ := differenceFor_some links m item d hd
    obtain ⟨h1, h2⟩ := h S hS
    rcases hc with hc | hc
    · exact absurd h1 hc
    · exact absurd h2 hc

/-! ## Facts about the writes to `bounties` -/

theorem identities_updateOneBounty (project updatedDate : String) (assetLinks : List String)
    (collection : List Bounty) :
    identities (updateOneBounty project updatedDate assetLinks collection)
      = identities collection := by
  induction collection with
  | nil => rfl
  | cons doc docs ih =>
    unfold updateOneBounty
    by_cases h : doc.project = project
    · simp [h, identities]
    · simp only [h, if_false]
      simp only [identities, List.map_cons] at ih ⊢
      rw [ih]

theorem identities_updateBountiesTable (links : String → List String)
    (updatedData : List Difference) (oks : List Bool) (collection : List Bounty) :
    identities (updateBountiesTable links updatedData oks collection) = identities collection := by
  induction updatedData generalizing oks collection with
  | nil => rfl
  | cons data rest ih =>
    unfold updateBountiesTable
    simp only []
    rw [ih]
    split
    · exact identities_updateOneBounty _ _ _ _
    · rfl

theorem keys_eq_identities (collection : List Bounty) :
    collection.map Bounty.project = (identities collection).map Prod.snd := by
  simp [identities, List.map_map, Function.comp_def]

theorem keys_updateBountiesTable (links : String → List String)
    (updatedData : List Difference) (oks : List Bool) (collection : List Bounty) :
    (updateBountiesTable links updatedData oks collection).map Bounty.project
      = collection.map Bounty.project := by
  rw [keys_eq_identities, identities_updateBountiesTable, ← keys_eq_identities]

theorem initialize_of_ne_nil (links : String → List String) (bounties : List Bounty)
    (countOk : Bool) (inserted : Option Nat) (collection : List Bounty)
    (h : collection ≠ []) :
    initializeBountiesTableIfEmpty links bounties countOk inserted collection = collection := by
  unfold initializeBountiesTableIfEmpty
  have hlen : ¬ collection.length = 0 := fun e => h (List.length_eq_zero.1 e)
  cases countOk <;> simp [hlen]

theorem keys_resolved (links : String → List String) (bounties : List Bounty) :
    (bounties.map (fun b => ({ b with assetLinks := links b.id } : Bounty))).map Bounty.project
      = bounties.map Bounty.project := by
  simp [List.map_map, Function.comp_def]

theorem initialize_nil_keys_nodup (links : String → List String) (bounties : List Bounty)
    (countOk : Bool) (inserted : Option Nat)
    (h : (bounties.map Bounty.project).Nodup) :
    ((initializeBountiesTableIfEmpty links bounties countOk inserted []).map
      Bounty.project).Nodup := by
  unfold initializeBountiesTableIfEmpty
  cases countOk with
  | false => simp
  | true =>
    cases inserted with
    | none =>
      simp only [Bool.not_true, Bool.false_eq_true, if_false, List.length_nil, beq_self_eq_true,
        if_true, List.nil_append]
      rw [keys_resolved]
      exact h
    | some n =>
      simp only [Bool.not_true, Bool.false_eq_true, if_false, List.length_nil, beq_self_eq_true,
        if_true, List.nil_append]
      rw [← List.map_take, keys_resolved]
      exact h.sublist ((List.take_sublist n bounties).map Bounty.project)

theorem applyOp_invariant (op : Op) (collection : List Bounty) (hop : op.distinctBatch)
    (h : (collection.map Bounty.project).Nodup) :
    ((applyOp op collection).map Bounty.project).Nodup ∧
      identities collection <+: identities (applyOp op collection) := by
  cases op with
  | seed links bounties countOk inserted =>
    simp only [applyOp]
    cases collection with
    | nil =>
      exact ⟨initialize_nil_keys_nodup links bounties countOk inserted hop,
        by simp [identities]⟩
    | cons doc docs =>
      rw [initialize_of_ne_nil _ _ _ _ _ (by simp)]
      exact ⟨h, List.prefix_refl _⟩
  | update links updatedData oks =>
    simp only [applyOp]
    rw [keys_updateBountiesTable, identities_updateBountiesTable]
    exact ⟨h, List.prefix_refl _⟩

theorem runOps_append (pre post : List Op) (collection : List Bounty) :
    runOps (pre ++ post) collection = runOps post (runOps pre collection) := by
  simp [runOps, List.foldl_append]

theorem ne_nil_of_identities_grow (c₁ c₂ : List Bounty) (hne : c₁ ≠ [])
    (h : identities c₁ <+: identities c₂) : c₂ ≠ [] := by
  intro e
  subst e
  have : identities c₁ = [] := List.prefix_nil.1 h
  cases c₁ with
  | nil => exact hne rfl
  | cons a l => simp [identities] at this

theorem applyOp_of_ne_nil (op : Op) (collection : List Bounty) (hne : collection ≠ [])
    (h : (collection.map Bounty.project).Nodup) :
    ((applyOp op collection).map Bounty.project).Nodup ∧
      identities collection <+: identities (applyOp op collection) := by
  cases op with
  | seed links bounties countOk inserted =>
    simp only [applyOp]
    rw [initialize_of_ne_nil _ _ _ _ _ hne]
    exact ⟨h, List.prefix_refl _⟩
  | update links updatedData oks =>
    simp only [applyOp]
    rw [keys_updateBountiesTable, identities_updateBountiesTable]
    exact ⟨h, List.prefix_refl _⟩

theorem runOps_invariant (ops : List Op) (collection : List Bounty)
    (hops : (∀ op ∈ ops, op.distinctBatch) ∨ collection ≠ [])
    (h : (collection.map Bounty.project).Nodup) :
    ((runOps ops collection).map Bounty.project).Nodup ∧
      identities collection <+: identities (runOps ops collection) := by
  induction ops generalizing collection with
  | nil => exact ⟨h, List.prefix_refl _⟩
  | cons op rest ih =>
    have h1 : ((applyOp op collection).map Bounty.project).Nodup ∧
        identities collection <+: identities (applyOp op collection) := by
      rcases hops with hops | hne
      · exact applyOp_invariant op collection (hops op (by simp)) h
      · exact applyOp_of_ne_nil op collection hne h
    have hrest : (∀ o ∈ rest, o.distinctBatch) ∨ applyOp op collection ≠ [] := by
      rcases hops with hops | hne
      · exact Or.inl (fun o ho => hops o (by simp [ho]))
      · exact Or.inr (ne_nil_of_identities_grow _ _ hne h1.2)
    have h2 := ih (applyOp op collection) hrest h1.1
    exact ⟨h2.1, h1.2.trans h2.2⟩

/-! ## A batch of successful updates, document by document -/

theorem updateBountiesTable_cons_ok (links : String → List String) (data : Difference)
    (rest : List Difference) (oks : List Bool) (collection : List Bounty)
    (h : oks.headD true = true) :
    updateBountiesTable links (data :: rest) oks collection
      = updateBountiesTable links rest oks.tail
          (updateOneBounty data.project data.newUpdatedDate (links data.id) collection) := by
  rw [updateBountiesTable, if_pos h]

theorem headD_of_all_true (oks : List Bool) (h : ∀ b ∈ oks, b = true) :
    oks.headD true = true := by
  cases oks with
  | nil => rfl
  | cons b bs => simpa using h b (by simp)

theorem tail_all_true (oks : List Bool) (h : ∀ b ∈ oks, b = true) :
    ∀ b ∈ oks.tail, b = true := fun b hb => h b (List.mem_of_mem_tail hb)

theorem updateBountiesTable_all_ok (links : String → List String)
    (updatedData : List Difference) (oks : List Bool) (collection : List Bounty)
    (h : ∀ b ∈ oks, b = true) :
    updateBountiesTable links updatedData oks collection
      = updateBountiesTable links updatedData [] collection := by
  induction updatedData generalizing oks collection with
  | nil => rfl
  | cons data rest ih =>
    rw [updateBountiesTable_cons_ok _ _ _ _ _ (headD_of_all_true oks h),
      updateBountiesTable_cons_ok _ _ _ [] _ rfl, ih _ _ (tail_all_true oks h)]
    rfl

theorem updateBountiesTable_nil_collection (links : String → List String)
    (updatedData : List Difference) :
    updateBountiesTable links updatedData [] [] = [] := by
  induction updatedData with
  | nil => rfl
  | cons data rest ih =>
    rw [updateBountiesTable_cons_ok _ _ _ [] _ rfl]
    exact ih

theorem applyToDoc_nil (links : String → List String) (doc : Bounty) :
    applyToDoc links doc [] = doc := rfl

theorem applyToDoc_cons (links : String → List String) (doc : Bounty) (data : Difference)
    (rest : List Difference) :
    applyToDoc links doc (data :: rest)
      = applyToDoc links
          (if doc.project = data.project then
            { doc with updatedDate := data.newUpdatedDate, assetLinks := links data.id }
           else doc) rest := rfl

theorem applyToDoc_append (links : String → List String) (doc : Bounty)
    (l₁ l₂ : List Difference) :
    applyToDoc links doc (l₁ ++ l₂) = applyToDoc links (applyToDoc links doc l₁) l₂ := by
  simp [applyToDoc, List.foldl_append]

theorem applyToDoc_project (links : String → List String) (doc : Bounty)
    (updatedData : List Difference) :
    (applyToDoc links doc updatedData).project = doc.project := by
  induction updatedData generalizing doc with
  | nil => rfl
  | cons data rest ih =>
    rw [applyToDoc_cons, ih]
    split <;> rfl

theorem applyToDoc_id (links : String → List String) (doc : Bounty)
    (updatedData : List Difference) :
    (applyToDoc links doc updatedData).id = doc.id := by
  induction updatedData generalizing doc with
  | nil => rfl
  | cons data rest ih =>
    rw [applyToDoc_cons, ih]
    split <;> rfl

theorem applyToDoc_idem (links : String → List String) (doc : Bounty)
    (updatedData : List Difference) :
    applyToDoc links (applyToDoc links doc updatedData) updatedData
      = applyToDoc links doc updatedData := by
  induction updatedData using List.reverseRecOn generalizing doc with
  | nil => rfl
  | append_singleton l data ih =>
    rw [applyToDoc_append links doc l [data]]
    rw [applyToDoc_append links _ l [data]]
    simp only [applyToDoc_cons, applyToDoc_nil]
    by_cases h : doc.project = data.project
    · have h1 : (applyToDoc links doc l).project = data.project := by
        rw [applyToDoc_project]; exact h
      simp only [h1, if_true]
      simp [applyToDoc_project, applyToDoc_id]
    · have h1 : ¬ (applyToDoc links doc l).project = data.project := by
        rw [applyToDoc_project]; exact h
      simp only [h1, if_false]
      rw [ih]
      simp only [h1, if_false]

theorem applyToDoc_filter (links : String → List String) (doc : Bounty)
    (updatedData : List Difference) (p : Difference → Bool)
    (hp : ∀ data ∈ updatedData, data.project = doc.project → p data = true) :
    applyToDoc links doc (updatedData.filter p) = applyToDoc links doc updatedData := by
  induction updatedData generalizing doc with
  | nil => rfl
  | cons data rest ih =>
    by_cases hk : doc.project = data.project
    · have hpd : p data = true := hp data (by simp) hk.symm
      rw [List.filter_cons_of_pos hpd, applyToDoc_cons, applyToDoc_cons]
      simp only [hk, if_true]
      apply ih
      intro d hd hproj
      exact hp d (by simp [hd]) (by rw [hproj]; exact hk.symm)
    · have hrest := ih doc (fun d hd hproj => hp d (by simp [hd]) hproj)
      rw [applyToDoc_cons]
      simp only [hk, if_false]
      cases hpd : p data with
      | true =>
        rw [List.filter_cons_of_pos hpd, applyToDoc_cons]
        simp only [hk, if_false]
        exact hrest
      | false =>
        rw [List.filter_cons_of_neg (by simp [hpd])]
        exact hrest

theorem updateBountiesTable_cons_collection (links : String → List String)
    (updatedData : List Difference) (doc : Bounty) (docs : List Bounty) :
    updateBountiesTable links updatedData [] (doc :: docs)
      = applyToDoc links doc updatedData
        :: updateBountiesTable links
            (updatedData.filter (fun data => decide (data.project ≠ doc.project))) [] docs := by
  induction updatedData generalizing doc docs with
  | nil => rfl
  | cons data rest ih =>
    rw [updateBountiesTable_cons_ok _ _ _ [] _ rfl, applyToDoc_cons]
    by_cases hk : doc.project = data.project
    · have hk2 : decide (data.project ≠ doc.project) = false := by simp [hk]
      rw [List.filter_cons]
      simp only [hk2, Bool.false_eq_true, if_false]
      simp only [updateOneBounty, hk, if_true, List.tail_nil]
      have := ih { doc with updatedDate := data.newUpdatedDate, assetLinks := links data.id } docs
      simp only [hk] at this
      exact this
    · have hk2 : decide (data.project ≠ doc.project) = true := by
        simp only [decide_eq_true_eq]
        exact fun e => hk e.symm
      rw [List.filter_cons]
      simp only [hk2, if_true]
      simp only [updateOneBounty, hk, if_false, List.tail_nil]
      rw [ih doc, updateBountiesTable_cons_ok _ _ _ [] _ rfl]
      rfl

theorem updateBountiesTable_idem (links : String → List String)
    (updatedData : List Difference) (collection : List Bounty) :
    updateBountiesTable links updatedData []
        (updateBountiesTable links updatedData [] collection)
      = updateBountiesTable links updatedData [] collection := by
  induction collection generalizing updatedData with
  | nil => simp [updateBountiesTable_nil_collection]
  | cons doc docs ih =>
    rw [updateBountiesTable_cons_collection, updateBountiesTable_cons_collection,
      applyToDoc_idem, applyToDoc_project, ih]

/-! ## Looking a project up after a batch of successful updates -/

theorem foldl_existingData (docs : List Bounty) (m0 : String → Option Bounty) (k : String) :
    docs.foldl (fun m item => fun k => if k = item.project then some item else m k) m0 k
      = (existingDataOf docs k).orElse (fun _ => m0 k) := by
  induction docs using List.reverseRecOn with
  | nil => simp [existingDataOf_nil]
  | append_singleton l r ih =>
    rw [existingDataOf_append, List.foldl_append]
    simp only [List.foldl_cons, List.foldl_nil]
    by_cases hk : k = r.project
    · simp [hk]
    · simp only [hk, if_false]
      exact ih

theorem existingDataOf_cons (doc : Bounty) (docs : List Bounty) (k : String)
    (hnew : doc.project ∉ docs.map Bounty.project) :
    existingDataOf (doc :: docs) k
      = if k = doc.project then some doc else existingDataOf docs k := by
  have h := foldl_existingData docs
    (fun k => if k = doc.project then some doc else none) k
  have hdef : existingDataOf (doc :: docs) k
      = docs.foldl (fun m item => fun k => if k = item.project then some item else m k)
          (fun k => if k = doc.project then some doc else none) k := rfl
  rw [hdef, h]
  by_cases hk : k = doc.project
  · have hnone : existingDataOf docs k = none := by
      rw [existingDataOf_eq_none]
      intro r hr e
      exact hnew (by rw [← hk, ← e]; exact List.mem_map_of_mem Bounty.project hr)
    rw [hnone]
    simp [hk]
  · simp only [hk, if_false]
    cases existingDataOf docs k <;> rfl

theorem existingDataOf_update (links : String → List String) (updatedData : List Difference)
    (collection : List Bounty) (hkeys : (collection.map Bounty.project).Nodup) (k : String) :
    existingDataOf (updateBountiesTable links updatedData [] collection) k
      = (existingDataOf collection k).map (fun doc => applyToDoc links doc updatedData) := by
  induction collection generalizing updatedData with
  | nil => simp [updateBountiesTable_nil_collection, existingDataOf_nil]
  | cons doc docs ih =>
    rw [List.map_cons, List.nodup_cons] at hkeys
    obtain ⟨hnew, hrest⟩ := hkeys
    rw [updateBountiesTable_cons_collection, existingDataOf_cons _ _ _ hnew,
      existingDataOf_cons]
    · rw [applyToDoc_project]
      by_cases hk : k = doc.project
      · simp [hk]
      · simp only [hk, if_false]
        rw [ih _ hrest]
        cases hlook : existingDataOf docs k with
        | none => rfl
        | some doc2 =>
          have hproj := (existingDataOf_some docs k doc2 hlook).2
          simp only [Option.map_some']
          rw [applyToDoc_filter]
          intro data _ hd
          simp only [decide_eq_true_eq]
          rw [hd, hproj]
          exact hk
    · rw [applyToDoc_project, keys_updateBountiesTable]
      exact hnew

theorem applyToDoc_keeps (links : String → List String) (doc : Bounty)
    (updatedData : List Difference) (date : String) (lks : List String)
    (hall : ∀ data ∈ updatedData, data.project = doc.project →
      data.newUpdatedDate = date ∧ links data.id = lks)
    (hdoc : doc.updatedDate = date ∧ doc.assetLinks = lks) :
    (applyToDoc links doc updatedData).updatedDate = date ∧
      (applyToDoc links doc updatedData).assetLinks = lks := by
  induction updatedData generalizing doc with
  | nil => exact hdoc
  | cons data rest ih =>
    rw [applyToDoc_cons]
    by_cases hk : doc.project = data.project
    · simp only [hk, if_true]
      apply ih
      · intro d hd hproj
        exact hall d (by simp [hd]) (by rw [hproj, hk])
      · exact hall data (by simp) hk.symm
    · simp only [hk, if_false]
      exact ih doc (fun d hd hproj => hall d (by simp [hd]) hproj) hdoc

theorem applyToDoc_sets (links : String → List String) (doc : Bounty)
    (updatedData : List Difference) (date : String) (lks : List String)
    (hall : ∀ data ∈ updatedData, data.project = doc.project →
      data.newUpdatedDate = date ∧ links data.id = lks)
    (hex : ∃ data ∈ updatedData, data.project = doc.project) :
    (applyToDoc links doc updatedData).updatedDate = date ∧
      (applyToDoc links doc updatedData).assetLinks = lks := by
  induction updatedData generalizing doc with
  | nil =>
    obtain ⟨d, hd, -⟩ := hex
    simp at hd
  | cons data rest ih =>
    rw [applyToDoc_cons]
    by_cases hk : doc.project = data.project
    · simp only [hk, if_true]
      apply applyToDoc_keeps
      · intro d hd hproj
        exact hall d (by simp [hd]) (by rw [hproj, hk])
      · exact hall data (by simp) hk.symm
    · simp only [hk, if_false]
      apply ih doc (fun d hd hproj => hall d (by simp [hd]) hproj)
      obtain ⟨d, hd, hproj⟩ := hex
      rcases List.mem_cons.1 hd with hd | hd
      · exact absurd (by rw [← hd, hproj]) hk
      · exact ⟨d, hd, hproj⟩

theorem compare_after_update (links : String → List String) (newData bounties : List Bounty)
    (hstore : (bounties.map Bounty.project).Nodup)
    (hbatch : (newData.map Bounty.project).Nodup) :
    compareWithExistingData links newData true
        (updateBountiesTable links (compareWithExistingData links newData true bounties) []
          bounties)
      = [] := by
  rw [compare_eq_filterMap links newData (updateBountiesTable _ _ _ _)]
  rw [List.filterMap_eq_nil_iff]
  intro item hitem
  apply differenceFor_eq_none
  intro S2 hS2
  rw [existingDataOf_update _ _ _ hstore] at hS2
  cases hlook : existingDataOf bounties item.project with
  | none => simp [hlook] at hS2
  | some S =>
    rw [hlook] at hS2
    simp only [Option.map_some', Option.some.injEq] at hS2
    have hSproj : S.project = item.project := (existingDataOf_some _ _ _ hlook).2
    have hall : ∀ data ∈ compareWithExistingData links newData true bounties,
        data.project = S.project →
        data.newUpdatedDate = item.updatedDate ∧ links data.id = links item.id := by
      intro data hdata hproj
      rw [compare_eq_filterMap, List.mem_filterMap] at hdata
      obtain ⟨item2, hitem2, hdiff⟩ := hdata
      obtain ⟨S3, -, -, hdeq⟩ := differenceFor_some links _ item2 data hdiff
      have hp2 : item2.project = item.project := by
        rw [← hSproj, ← hproj, hdeq]
      have : item2 = item := List.inj_on_of_nodup_map hbatch hitem2 hitem hp2
      subst this
      rw [hdeq]
      exact ⟨rfl, rfl⟩
    have hgoal : (applyToDoc links S (compareWithExistingData links newData true bounties)).updatedDate
          = item.updatedDate ∧
        (applyToDoc links S (compareWithExistingData links newData true bounties)).assetLinks
          = links item.id := by
      cases hd : differenceFor links (existingDataOf bounties) item with
      | some d =>
        apply applyToDoc_sets links S _ _ _ hall
        refine ⟨d, ?_, ?_⟩
        · rw [compare_eq_filterMap, List.mem_filterMap]
          exact ⟨item, hitem, hd⟩
        · obtain ⟨S3, -, -, hdeq⟩ := differenceFor_some links _ item d hd
          rw [hdeq, hSproj]
      | none =>
        apply applyToDoc_keeps links S _ _ _ hall
        by_contra hcon
        have hsome := (differenceFor_isSome_iff links (existingDataOf bounties) item).2
          ⟨S, hlook, by
            by_contra hboth
            push_neg at hboth
            exact hcon ⟨hboth.1.symm, hboth.2.symm⟩⟩
        rw [hd] at hsome
        simp at hsome
    rw [← hS2]
    exact ⟨hgoal.1.symm, hgoal.2.symm⟩

/-! ## Facts about the writes to `differences` -/

theorem insertIntoDiffTable_cons (diff : Difference) (rest : List Difference)
    (oks : List Bool) (log : List Difference) :
    insertIntoDiffTable (diff :: rest) oks log
      = insertIntoDiffTable rest oks.tail
          (if oks.headD true then upsertDifference diff log else log) := by
  rw [insertIntoDiffTable]

theorem insertIntoDiffTable_all_ok (differences : List Difference) (oks : List Bool)
    (log : List Difference) (h : ∀ b ∈ oks, b = true) :
    insertIntoDiffTable differences oks log = insertIntoDiffTable differences [] log := by
  induction differences generalizing oks log with
  | nil => rfl
  | cons diff rest ih =>
    rw [insertIntoDiffTable_cons, insertIntoDiffTable_cons, if_pos (headD_of_all_true oks h),
      ih _ _ (tail_all_true oks h)]
    rfl

theorem insertIntoDiffTable_append (l₁ l₂ : List Difference) (log : List Difference) :
    insertIntoDiffTable (l₁ ++ l₂) [] log
      = insertIntoDiffTable l₂ [] (insertIntoDiffTable l₁ [] log) := by
  induction l₁ generalizing log with
  | nil => rfl
  | cons diff rest ih =>
    rw [List.cons_append, insertIntoDiffTable_cons, insertIntoDiffTable_cons]
    exact ih _

theorem keys_upsertDifference (diff : Difference) (log : List Difference) :
    (upsertDifference diff log).map Difference.project
      = if diff.project ∈ log.map Difference.project then log.map Difference.project
        else log.map Difference.project ++ [diff.project] := by
  induction log with
  | nil => simp [upsertDifference]
  | cons doc docs ih =>
    unfold upsertDifference
    by_cases hk : doc.project = diff.project
    · simp [hk]
    · have hk2 : ¬ diff.project = doc.project := fun e => hk e.symm
      simp only [hk, if_false, List.map_cons, List.mem_cons, hk2, false_or]
      rw [ih]
      split <;> simp

theorem nodup_upsertDifference (diff : Difference) (log : List Difference)
    (h : (log.map Difference.project).Nodup) :
    ((upsertDifference diff log).map Difference.project).Nodup := by
  rw [keys_upsertDifference]
  split
  · exact h
  · rename_i hnot
    rw [List.nodup_append]
    refine ⟨h, by simp, ?_⟩
    intro a ha hb
    have : a = diff.project := by simpa using hb
    exact hnot (this ▸ ha)

theorem nodup_insertIntoDiffTable (differences : List Difference) (oks : List Bool)
    (log : List Difference) (h : (log.map Difference.project).Nodup) :
    ((insertIntoDiffTable differences oks log).map Difference.project).Nodup := by
  induction differences generalizing oks log with
  | nil => exact h
  | cons diff rest ih =>
    rw [insertIntoDiffTable_cons]
    apply ih
    split
    · exact nodup_upsertDifference diff log h
    · exact h

theorem mem_upsertDifference_self (diff : Difference) (log : List Difference) :
    diff ∈ upsertDifference diff log := by
  induction log with
  | nil => simp [upsertDifference]
  | cons doc docs ih =>
    unfold upsertDifference
    by_cases hk : doc.project = diff.project
    · simp only [hk, if_true]
      exact List.mem_cons_self _ _
    · simp only [hk, if_false]
      exact List.mem_cons_of_mem _ ih

theorem mem_upsertDifference_other (diff r : Difference) (log : List Difference)
    (hr : r.project ≠ diff.project) :
    r ∈ upsertDifference diff log ↔ r ∈ log := by
  induction log with
  | nil =>
    have : r ≠ diff := fun e => hr (by rw [e])
    simp [upsertDifference, this]
  | cons doc docs ih =>
    unfold upsertDifference
    by_cases hk : doc.project = diff.project
    · simp only [hk, if_true, List.mem_cons]
      have h1 : r ≠ doc := fun e => hr (by rw [e, hk])
      have h2 : r ≠ { id := diff.id, project := diff.project,
                      existingUpdatedDate := diff.existingUpdatedDate,
                      newUpdatedDate := diff.newUpdatedDate,
                      linkDiff := diff.linkDiff } := fun e => hr (by rw [e])
      simp [h1, h2]
    · simp only [hk, if_false, List.mem_cons, ih]

theorem mem_insertIntoDiffTable_other (differences : List Difference) (oks : List Bool)
    (log : List Difference) (r : Difference)
    (hr : ∀ e ∈ differences, e.project ≠ r.project) :
    r ∈ insertIntoDiffTable differences oks log ↔ r ∈ log := by
  induction differences generalizing oks log with
  | nil => rfl
  | cons diff rest ih =>
    rw [insertIntoDiffTable_cons, ih _ _ (fun e he => hr e (by simp [he]))]
    split
    · exact mem_upsertDifference_other diff r log (fun e => hr diff (by simp) e.symm)
    · rfl

/-! ## Facts about the order of the store calls -/

theorem mem_insertIntoDiffTableCalls (differences : List Difference) (oks : List Bool)
    (c : StoreCall) (h : c ∈ insertIntoDiffTableCalls differences oks) :
    ∃ k ok, c = StoreCall.differenceUpsert k ok := by
  induction differences generalizing oks with
  | nil => simp [insertIntoDiffTableCalls] at h
  | cons diff rest ih =>
    rw [insertIntoDiffTableCalls, List.mem_cons] at h
    rcases h with h | h
    · exact ⟨_, _, h⟩
    · exact ih _ h

theorem mem_updateBountiesTableCalls (updatedData : List Difference) (oks : List Bool)
    (k : String) (ok : Bool)
    (h : StoreCall.bountyUpdate k ok ∈ updateBountiesTableCalls updatedData oks) :
    ∃ data ∈ updatedData, data.project = k := by
  induction updatedData generalizing oks with
  | nil => simp [updateBountiesTableCalls] at h
  | cons data rest ih =>
    rw [updateBountiesTableCalls, List.mem_cons] at h
    rcases h with h | h
    · refine ⟨data, by simp, ?_⟩
      injection h with h1 _
      exact h1.symm
    · obtain ⟨d, hd, hk⟩ := ih _ h
      exact ⟨d, by simp [hd], hk⟩

theorem insertIntoDiffTableCalls_attempt (differences : List Difference) (oks : List Bool)
    (diff : Difference) (h : diff ∈ differences) :
    ∃ ok, StoreCall.differenceUpsert diff.project ok ∈ insertIntoDiffTableCalls differences oks := by
  induction differences generalizing oks with
  | nil => simp at h
  | cons d rest ih =>
    rw [insertIntoDiffTableCalls]
    rcases List.mem_cons.1 h with h | h
    · exact ⟨oks.headD true, by rw [h]; exact List.mem_cons_self _ _⟩
    · obtain ⟨ok, hok⟩ := ih oks.tail h
      exact ⟨ok, List.mem_cons_of_mem _ hok⟩

theorem insertIntoDiffTableCalls_ok (differences : List Difference) (oks : List Bool)
    (hoks : ∀ b ∈ oks, b = true) (diff : Difference) (h : diff ∈ differences) :
    StoreCall.differenceUpsert diff.project true ∈ insertIntoDiffTableCalls differences oks := by
  induction differences generalizing oks with
  | nil => simp at h
  | cons d rest ih =>
    rw [insertIntoDiffTableCalls, headD_of_all_true oks hoks]
    rcases List.mem_cons.1 h with h | h
    · rw [h]; exact List.mem_cons_self _ _
    · exact List.mem_cons_of_mem _ (ih oks.tail (tail_all_true oks hoks) h)

theorem calls_split (A B pre post : List StoreCall) (k : String) (ok : Bool)
    (hA : StoreCall.bountyUpdate k ok ∉ A)
    (h : A ++ B = pre ++ StoreCall.bountyUpdate k ok :: post) :
    (∀ c ∈ A, c ∈ pre) ∧ StoreCall.bountyUpdate k ok ∈ B := by
  rcases List.append_eq_append_iff.1 h with ⟨a, ha, hb⟩ | ⟨c, hc, hd⟩
  · refine ⟨fun x hx => by rw [ha]; exact List.mem_append_left _ hx, ?_⟩
    rw [hb]
    simp
  · cases c with
    | nil =>
      simp only [List.append_nil, List.nil_append] at hc hd
      refine ⟨fun x hx => by rw [← hc]; exact hx, ?_⟩
      rw [← hd]
      simp
    | cons x xs =>
      rw [List.cons_append] at hd
      injection hd with h1 _
      exact absurd (by rw [hc, h1]; simp) hA

/-! ## Properties of the comparison -/

/-- C1: with one stored record per project and a read of the collection that
succeeds, the records `compareWithExistingData` returns are the concatenation,
item by item, of what it returns for each observed item alone (at most one
record each); it returns a record for an item exactly when the store
holds a record with the item's project whose `updatedDate` differs from the
item's or whose `assetLinks` differ, as lists, from the links resolved for the
item.  An item whose project is not stored gives no record, and neither does an
item equal to its stored record. -/
theorem compareWithExistingData_emits_iff (links : String → List String)
    (bounties : List Bounty) (hkeys : (bounties.map Bounty.project).Nodup) :
    (∀ pre item post,
      compareWithExistingData links (pre ++ item :: post) true bounties
        = compareWithExistingData links pre true bounties
          ++ compareWithExistingData links [item] true bounties
          ++ compareWithExistingData links post true bounties) ∧
    (∀ item, (compareWithExistingData links [item] true bounties).length ≤ 1 ∧
      (compareWithExistingData links [item] true bounties ≠ [] ↔
        ∃ S ∈ bounties, S.project = item.project ∧
          (item.updatedDate ≠ S.updatedDate ∨ links item.id ≠ S.assetLinks))) ∧
    (∀ item, (∀ S ∈ bounties, S.project ≠ item.project) →
      compareWithExistingData links [item] true bounties = []) ∧
    (∀ item S, S ∈ bounties → S.project = item.project →
      item.updatedDate = S.updatedDate → links item.id = S.assetLinks →
      compareWithExistingData links [item] true bounties = []) := by
  refine ⟨fun pre item post => compare_split links pre post item bounties, ?_, ?_, ?_⟩
  · intro item
    rw [compare_single]
    constructor
    · cases differenceFor links (existingDataOf bounties) item <;> simp
    · have hiff := differenceFor_isSome_iff links (existingDataOf bounties) item
      constructor
      · intro hne
        have hs : (differenceFor links (existingDataOf bounties) item).isSome = true := by
          cases h : differenceFor links (existingDataOf bounties) item with
          | none => simp [h] at hne
          | some d => rfl
        obtain ⟨S, hS, hc⟩ := hiff.1 hs
        obtain ⟨hmem, hproj⟩ := existingDataOf_some bounties _ S hS
        exact ⟨S, hmem, hproj, hc⟩
      · rintro ⟨S, hmem, hproj, hc⟩
        have hS : existingDataOf bounties item.project = some S := by
          rw [← hproj]
          exact existingDataOf_of_mem bounties hkeys S hmem
        have hs := hiff.2 ⟨S, hS, hc⟩
        cases h : differenceFor links (existingDataOf bounties) item with
        | none => simp [h] at hs
        | some d => simp
  · intro item habs
    rw [compare_single, differenceFor_eq_none]
    · rfl
    · intro S hS
      obtain ⟨hmem, hproj⟩ := existingDataOf_some bounties _ S hS
      exact absurd hproj (habs S hmem)
  · intro item S hmem hproj hd hl
    rw [compare_single, differenceFor_eq_none]
    · rfl
    · intro S2 hS2
      have hS : existingDataOf bounties item.project = some S := by
        rw [← hproj]
        exact existingDataOf_of_mem bounties hkeys S hmem
      rw [hS] at hS2
      cases hS2
      exact ⟨hd, hl⟩

theorem compareWithExistingData_emits_iff_witness :
    ([({ id := "1", project := "acme", updatedDate := "2024-01-01", assetLinks := [] } : Bounty)].map
        Bounty.project).Nodup ∧
    compareWithExistingData (fun _ => ["https://github.com/acme/x"])
      [{ id := "1", project := "acme", updatedDate := "2024-02-01", assetLinks := [] }] true
      [{ id := "1", project := "acme", updatedDate := "2024-01-01", assetLinks := [] }] ≠ [] :=
  ⟨by decide,
   ((compareWithExistingData_emits_iff (fun _ => ["https://github.com/acme/x"])
      [{ id := "1", project := "acme", updatedDate := "2024-01-01", assetLinks := [] }]
      (by decide)).2.1
      { id := "1", project := "acme", updatedDate := "2024-02-01", assetLinks := [] }).2.2
    ⟨{ id := "1", project := "acme", updatedDate := "2024-01-01", assetLinks := [] },
      by decide, by decide, by decide⟩⟩

/-- C2: `stringDifference a b` is `a` filtered by "not a member of `b`", in the
order of `a`; and every record `compareWithExistingData` returns comes from an
observed item and the stored record of its project, and its `linkDiff` is the
item's resolved links filtered by "not among the stored links". -/
theorem linkDiff_eq_filter (links : String → List String) (newData : List Bounty)
    (readOk : Bool) (bounties : List Bounty) :
    (∀ a b : List String, stringDifference a b = a.filter (fun x => decide (x ∉ b))) ∧
    (∀ d ∈ compareWithExistingData links newData readOk bounties,
      ∃ item ∈ newData, ∃ S ∈ bounties,
        S.project = item.project ∧ existingDataOf bounties item.project = some S ∧
        d.id = item.id ∧ d.project = item.project ∧
        d.existingUpdatedDate = S.updatedDate ∧ d.newUpdatedDate = item.updatedDate ∧
        d.linkDiff = (links item.id).filter (fun x => decide (x ∉ S.assetLinks))) := by
  refine ⟨stringDifference_eq_filter, ?_⟩
  intro d hd
  cases readOk with
  | false => simp [compare_read_failed] at hd
  | true =>
    rw [compare_eq_filterMap, List.mem_filterMap] at hd
    obtain ⟨item, hitem, hdiff⟩ := hd
    obtain ⟨S, hS, -, hdeq⟩ := differenceFor_some links _ item d hdiff
    obtain ⟨hmem, hproj⟩ := existingDataOf_some bounties _ S hS
    refine ⟨item, hitem, S, hmem, hproj, hS, ?_⟩
    subst hdeq
    simp [stringDifference_eq_filter]

theorem linkDiff_eq_filter_witness :
    ∃ item ∈ [({ id := "1", project := "acme", updatedDate := "2024-02-01",
                 assetLinks := [] } : Bounty)],
      ∃ S ∈ [({ id := "1", project := "acme", updatedDate := "2024-01-01",
                assetLinks := [] } : Bounty)],
        S.project = item.project ∧
        existingDataOf [{ id := "1", project := "acme", updatedDate := "2024-01-01",
                          assetLinks := [] }] item.project = some S ∧
        ({ id := "1", project := "acme", existingUpdatedDate := "2024-01-01",
           newUpdatedDate := "2024-02-01",
           linkDiff := ["https://github.com/acme/x"] } : Difference).id = item.id ∧
        ({ id := "1", project := "acme", existingUpdatedDate := "2024-01-01",
           newUpdatedDate := "2024-02-01",
           linkDiff := ["https://github.com/acme/x"] } : Difference).project = item.project ∧
        ({ id := "1", project := "acme", existingUpdatedDate := "2024-01-01",
           newUpdatedDate := "2024-02-01",
           linkDiff := ["https://github.com/acme/x"] } : Difference).existingUpdatedDate
          = S.updatedDate ∧
        ({ id := "1", project := "acme", existingUpdatedDate := "2024-01-01",
           newUpdatedDate := "2024-02-01",
           linkDiff := ["https://github.com/acme/x"] } : Difference).newUpdatedDate
          = item.updatedDate ∧
        ({ id := "1", project := "acme", existingUpdatedDate := "2024-01-01",
           newUpdatedDate := "2024-02-01",
           linkDiff := ["https://github.com/acme/x"] } : Difference).linkDiff
          = ((fun _ => ["https://github.com/acme/x"]) item.id).filter
              (fun x => decide (x ∉ S.assetLinks)) :=
  (linkDiff_eq_filter (fun _ => ["https://github.com/acme/x"])
    [{ id := "1", project := "acme", updatedDate := "2024-02-01", assetLinks := [] }] true
    [{ id := "1", project := "acme", updatedDate := "2024-01-01", assetLinks := [] }]).2
    { id := "1", project := "acme", existingUpdatedDate := "2024-01-01",
      newUpdatedDate := "2024-02-01", linkDiff := ["https://github.com/acme/x"] }
    (by decide)

/-- C3: an observed item whose resolved links are a permutation of the links of
its stored record without being the same list gives exactly one record, at the
item's place in the output, and the `linkDiff` of that record is empty.  This
holds whatever the two `updatedDate`s are, so also when they are the same. -/
theorem permuted_links_emit_empty_linkDiff (links : String → List String)
    (bounties : List Bounty) (hkeys : (bounties.map Bounty.project).Nodup)
    (pre post : List Bounty) (item S : Bounty)
    (hS : S ∈ bounties) (hproj : S.project = item.project)
    (hperm : (links item.id).Perm S.assetLinks) (hne : links item.id ≠ S.assetLinks) :
    compareWithExistingData links (pre ++ item :: post) true bounties
      = compareWithExistingData links pre true bounties
        ++ [{ id := item.id
              project := item.project
              existingUpdatedDate := S.updatedDate
              newUpdatedDate := item.updatedDate
              linkDiff := [] }]
        ++ compareWithExistingData links post true bounties := by
  have hlook : existingDataOf bounties item.project = some S := by
    rw [← hproj]
    exact existingDataOf_of_mem bounties hkeys S hS
  have hdiff := differenceFor_of_differs links (existingDataOf bounties) item S hlook (Or.inr hne)
  have hempty : stringDifference (links item.id) S.assetLinks = [] := by
    rw [stringDifference_eq_filter, List.filter_eq_nil_iff]
    intro x hx
    simp [hperm.mem_iff.1 hx]
  rw [compare_split, compare_single, hdiff, hempty]
  rfl

theorem permuted_links_emit_empty_linkDiff_witness :
    compareWithExistingData (fun _ => ["a", "b"])
      ([] ++ ({ id := "1", project := "acme", updatedDate := "d", assetLinks := [] } : Bounty) :: [])
      true [{ id := "1", project := "acme", updatedDate := "d", assetLinks := ["b", "a"] }]
      = compareWithExistingData (fun _ => ["a", "b"]) [] true
          [{ id := "1", project := "acme", updatedDate := "d", assetLinks := ["b", "a"] }]
        ++ [{ id := "1", project := "acme", existingUpdatedDate := "d", newUpdatedDate := "d",
              linkDiff := [] }]
        ++ compareWithExistingData (fun _ => ["a", "b"]) [] true
          [{ id := "1", project := "acme", updatedDate := "d", assetLinks := ["b", "a"] }] :=
  permuted_links_emit_empty_linkDiff (fun _ => ["a", "b"])
    [{ id := "1", project := "acme", updatedDate := "d", assetLinks := ["b", "a"] }]
    (by decide) [] []
    { id := "1", project := "acme", updatedDate := "d", assetLinks := [] }
    { id := "1", project := "acme", updatedDate := "d", assetLinks := ["b", "a"] }
    (by decide) rfl (List.Perm.swap "a" "b" []).symm (by decide)

/-! ## Properties of seeding and of the snapshot collection -/

/-- C5: when the `bounties` collection holds at least one document,
`initializeBountiesTableIfEmpty` leaves it as it is, whatever the batch and the
outcomes of the store calls; so a call that changes the collection was made on
an empty collection. -/
theorem seeding_only_when_empty (links : String → List String) (bounties : List Bounty)
    (countOk : Bool) (inserted : Option Nat) (collection : List Bounty) :
    (collection ≠ [] →
      initializeBountiesTableIfEmpty links bounties countOk inserted collection = collection) ∧
    (initializeBountiesTableIfEmpty links bounties countOk inserted collection ≠ collection →
      collection = []) := by
  refine ⟨initialize_of_ne_nil links bounties countOk inserted collection, ?_⟩
  intro hne
  by_contra hc
  exact hne (initialize_of_ne_nil links bounties countOk inserted collection hc)

theorem seeding_only_when_empty_witness :
    ([{ id := "1", project := "acme", updatedDate := "d", assetLinks := [] }] : List Bounty) ≠ [] ∧
    initializeBountiesTableIfEmpty (fun _ => ["x"])
      [{ id := "2", project := "beta", updatedDate := "e", assetLinks := [] }] true none
      [{ id := "1", project := "acme", updatedDate := "d", assetLinks := [] }]
      = [{ id := "1", project := "acme", updatedDate := "d", assetLinks := [] }] :=
  ⟨by decide,
   (seeding_only_when_empty (fun _ => ["x"])
      [{ id := "2", project := "beta", updatedDate := "e", assetLinks := [] }] true none
      [{ id := "1", project := "acme", updatedDate := "d", assetLinks := [] }]).1 (by decide)⟩

/-- C6: start from the empty `bounties` collection, seed it from a batch with
pairwise distinct projects, then run any sequence of seeding attempts and of
`updateBountiesTable` calls on arbitrary differences, with any outcomes of the
store calls; the batch of every later seeding attempt has pairwise distinct
projects, or the first seeding stored at least one document.  At every point of
that history the collection holds at most one document per project, and the
documents present at one point (their `id` and `project`, in order) are still
there at every later point. -/
theorem snapshot_unique_and_never_deleted (links : String → List String)
    (batch : List Bounty) (countOk : Bool) (inserted : Option Nat) (ops : List Op)
    (hbatch : (batch.map Bounty.project).Nodup)
    (hops : (∀ op ∈ ops, op.distinctBatch) ∨
      initializeBountiesTableIfEmpty links batch countOk inserted [] ≠ []) :
    ∀ pre post, ops = pre ++ post →
      ((runOps pre (initializeBountiesTableIfEmpty links batch countOk inserted [])).map
        Bounty.project).Nodup ∧
      identities (initializeBountiesTableIfEmpty links batch countOk inserted [])
        <+: identities (runOps pre (initializeBountiesTableIfEmpty links batch countOk inserted [])) ∧
      identities (runOps pre (initializeBountiesTableIfEmpty links batch countOk inserted []))
        <+: identities (runOps ops (initializeBountiesTableIfEmpty links batch countOk inserted [])) := by
  intro pre post hsplit
  have h0 := initialize_nil_keys_nodup links batch countOk inserted hbatch
  have hpre : (∀ op ∈ pre, op.distinctBatch) ∨
      initializeBountiesTableIfEmpty links batch countOk inserted [] ≠ [] := by
    rcases hops with hops | hne
    · exact Or.inl (fun o ho => hops o (by simp [hsplit, ho]))
    · exact Or.inr hne
  have h1 := runOps_invariant pre _ hpre h0
  have hpost : (∀ op ∈ post, op.distinctBatch) ∨
      runOps pre (initializeBountiesTableIfEmpty links batch countOk inserted []) ≠ [] := by
    rcases hops with hops | hne
    · exact Or.inl (fun o ho => hops o (by simp [hsplit, ho]))
    · exact Or.inr (ne_nil_of_identities_grow _ _ hne h1.2)
  have h2 := runOps_invariant post _ hpost h1.1
  rw [hsplit, runOps_append]
  exact ⟨h1.1, h1.2, h2.2⟩

theorem snapshot_unique_and_never_deleted_witness :
    ((runOps
        [Op.update (fun _ => ["x"])
          [{ id := "1", project := "acme", existingUpdatedDate := "d", newUpdatedDate := "e",
             linkDiff := [] }] []]
        (initializeBountiesTableIfEmpty (fun _ => [])
          [{ id := "1", project := "acme", updatedDate := "d", assetLinks := [] },
           { id := "2", project := "beta", updatedDate := "d", assetLinks := [] }]
          true none [])).map Bounty.project).Nodup :=
  (snapshot_unique_and_never_deleted (fun _ => [])
    [{ id := "1", project := "acme", updatedDate := "d", assetLinks := [] },
     { id := "2", project := "beta", updatedDate := "d", assetLinks := [] }]
    true none
    [Op.update (fun _ => ["x"])
      [{ id := "1", project := "acme", existingUpdatedDate := "d", newUpdatedDate := "e",
         linkDiff := [] }] [],
     Op.seed (fun _ => [])
      [{ id := "3", project := "gamma", updatedDate := "d", assetLinks := [] }] true none]
    (by decide)
    (Or.inl (by
      intro op hop
      simp only [List.mem_cons, List.mem_singleton, List.not_mem_nil, or_false] at hop
      rcases hop with h | h <;> subst h <;> simp [Op.distinctBatch]))
    [Op.update (fun _ => ["x"])
      [{ id := "1", project := "acme", existingUpdatedDate := "d", newUpdatedDate := "e",
         linkDiff := [] }] []]
    [Op.seed (fun _ => [])
      [{ id := "3", project := "gamma", updatedDate := "d", assetLinks := [] }] true none]
    rfl).1

/-! ## Properties of the writes -/

/-- C4: when every store call succeeds, running `updateBountiesTable` on the same
differences a second time, with the same link resolver, leaves the `bounties`
collection as the first run left it. -/
theorem updateBountiesTable_twice (links : String → List String)
    (updatedData : List Difference) (collection : List Bounty) (oks₁ oks₂ : List Bool)
    (h₁ : ∀ b ∈ oks₁, b = true) (h₂ : ∀ b ∈ oks₂, b = true) :
    updateBountiesTable links updatedData oks₂
        (updateBountiesTable links updatedData oks₁ collection)
      = updateBountiesTable links updatedData oks₁ collection := by
  rw [updateBountiesTable_all_ok _ _ oks₂ _ h₂, updateBountiesTable_all_ok _ _ oks₁ _ h₁]
  exact updateBountiesTable_idem links updatedData collection

theorem updateBountiesTable_twice_witness :
    updateBountiesTable (fun _ => ["x"])
        [{ id := "1", project := "acme", existingUpdatedDate := "d", newUpdatedDate := "e",
           linkDiff := ["x"] }] [true]
        (updateBountiesTable (fun _ => ["x"])
          [{ id := "1", project := "acme", existingUpdatedDate := "d", newUpdatedDate := "e",
             linkDiff := ["x"] }] [true]
          [{ id := "1", project := "acme", updatedDate := "d", assetLinks := [] }])
      = updateBountiesTable (fun _ => ["x"])
          [{ id := "1", project := "acme", existingUpdatedDate := "d", newUpdatedDate := "e",
             linkDiff := ["x"] }] [true]
          [{ id := "1", project := "acme", updatedDate := "d", assetLinks := [] }] :=
  updateBountiesTable_twice (fun _ => ["x"])
    [{ id := "1", project := "acme", existingUpdatedDate := "d", newUpdatedDate := "e",
       linkDiff := ["x"] }]
    [{ id := "1", project := "acme", updatedDate := "d", assetLinks := [] }] [true] [true]
    (by decide) (by decide)

/-- C7: `insertIntoDiffTable` keeps a change log with at most one record per
project in that shape, whatever the outcomes of the store calls; and when every
call succeeds, for each record of the sequence that no later record of the
sequence shares its project with, the log afterwards holds that record and no
other record of its project. -/
theorem insertIntoDiffTable_upserts (differences log : List Difference)
    (hlog : (log.map Difference.project).Nodup) :
    (∀ oks, ((insertIntoDiffTable differences oks log).map Difference.project).Nodup) ∧
    (∀ oks, (∀ b ∈ oks, b = true) →
      ∀ pre diff post, differences = pre ++ diff :: post →
        (∀ e ∈ post, e.project ≠ diff.project) →
        diff ∈ insertIntoDiffTable differences oks log ∧
        ∀ r ∈ insertIntoDiffTable differences oks log, r.project = diff.project → r = diff) := by
  refine ⟨fun oks => nodup_insertIntoDiffTable differences oks log hlog, ?_⟩
  intro oks hoks pre diff post hsplit hlast
  have hnodup := nodup_insertIntoDiffTable differences oks log hlog
  have hmem : diff ∈ insertIntoDiffTable differences oks log := by
    rw [insertIntoDiffTable_all_ok _ _ _ hoks, hsplit, insertIntoDiffTable_append,
      insertIntoDiffTable_cons, mem_insertIntoDiffTable_other _ _ _ _ hlast]
    exact mem_upsertDifference_self diff _
  exact ⟨hmem, fun r hr hproj => List.inj_on_of_nodup_map hnodup hr hmem hproj⟩

theorem insertIntoDiffTable_upserts_witness :
    ([({ id := "1", project := "acme", existingUpdatedDate := "a", newUpdatedDate := "b",
         linkDiff := [] } : Difference)].map Difference.project).Nodup ∧
    ({ id := "1", project := "acme", existingUpdatedDate := "b", newUpdatedDate := "c",
       linkDiff := ["x"] } : Difference) ∈
      insertIntoDiffTable
        ([{ id := "1", project := "acme", existingUpdatedDate := "a", newUpdatedDate := "b",
            linkDiff := [] }]
          ++ { id := "1", project := "acme", existingUpdatedDate := "b", newUpdatedDate := "c",
               linkDiff := ["x"] } :: [])
        [true, true]
        [{ id := "1", project := "acme", existingUpdatedDate := "a", newUpdatedDate := "b",
           linkDiff := [] }] :=
  ⟨by decide,
   ((insertIntoDiffTable_upserts
      ([{ id := "1", project := "acme", existingUpdatedDate := "a", newUpdatedDate := "b",
          linkDiff := [] }]
        ++ { id := "1", project := "acme", existingUpdatedDate := "b", newUpdatedDate := "c",
             linkDiff := ["x"] } :: [])
      [{ id := "1", project := "acme", existingUpdatedDate := "a", newUpdatedDate := "b",
         linkDiff := [] }]
      (by decide)).2 [true, true] (by decide)
      [{ id := "1", project := "acme", existingUpdatedDate := "a", newUpdatedDate := "b",
         linkDiff := [] }]
      { id := "1", project := "acme", existingUpdatedDate := "b", newUpdatedDate := "c",
        linkDiff := ["x"] }
      [] rfl (by decide)).1⟩

/-- C10: with one stored record per project, pairwise distinct projects in the
observed batch, one fixed link resolver and every write succeeding: once the
differences `compareWithExistingData` found have been applied by
`updateBountiesTable`, comparing the same batch again finds no difference. -/
theorem compare_converges (links : String → List String) (newData bounties : List Bounty)
    (oks : List Bool) (readOk : Bool)
    (hstore : (bounties.map Bounty.project).Nodup)
    (hbatch : (newData.map Bounty.project).Nodup)
    (hoks : ∀ b ∈ oks, b = true) :
    compareWithExistingData links newData readOk
        (updateBountiesTable links (compareWithExistingData links newData true bounties) oks
          bounties)
      = [] := by
  cases readOk with
  | false => exact compare_read_failed _ _ _
  | true =>
    rw [updateBountiesTable_all_ok _ _ _ _ hoks]
    exact compare_after_update links newData bounties hstore hbatch

theorem compare_converges_witness :
    compareWithExistingData (fun _ => ["x"])
        [{ id := "1", project := "acme", updatedDate := "e", assetLinks := [] }] true
        (updateBountiesTable (fun _ => ["x"])
          (compareWithExistingData (fun _ => ["x"])
            [{ id := "1", project := "acme", updatedDate := "e", assetLinks := [] }] true
            [{ id := "1", project := "acme", updatedDate := "d", assetLinks := [] }])
          [true]
          [{ id := "1", project := "acme", updatedDate := "d", assetLinks := [] }])
      = [] :=
  compare_converges (fun _ => ["x"])
    [{ id := "1", project := "acme", updatedDate := "e", assetLinks := [] }]
    [{ id := "1", project := "acme", updatedDate := "d", assetLinks := [] }]
    [true] true (by decide) (by decide) (by decide)

/-! ## Properties of a cycle -/

/-- C8 as stated fails: with a stored record for `acme`, one difference for
`acme`, a change-log upsert that fails and a snapshot update that succeeds, the
persist step rewrites the snapshot record and leaves the change log empty; its
successful snapshot update for `acme` has no successful change-log upsert for
`acme` before it. -/
theorem update_without_logged_change :
    (persist (fun _ => ["https://github.com/acme/x"])
      [{ id := "1", project := "acme", existingUpdatedDate := "2024-01-01",
         newUpdatedDate := "2024-02-01", linkDiff := ["https://github.com/acme/x"] }]
      [false] [true]
      { bounties := [{ id := "1", project := "acme", updatedDate := "2024-01-01",
                       assetLinks := [] }],
        differences := [] })
    = ({ bounties := [{ id := "1", project := "acme", updatedDate := "2024-02-01",
                        assetLinks := ["https://github.com/acme/x"] }],
         differences := [] },
       [StoreCall.differenceUpsert "acme" false, StoreCall.bountyUpdate "acme" true]) ∧
    ¬ (∀ pre k post,
        (persist (fun _ => ["https://github.com/acme/x"])
          [{ id := "1", project := "acme", existingUpdatedDate := "2024-01-01",
             newUpdatedDate := "2024-02-01", linkDiff := ["https://github.com/acme/x"] }]
          [false] [true]
          { bounties := [{ id := "1", project := "acme", updatedDate := "2024-01-01",
                           assetLinks := [] }],
            differences := [] }).2
          = pre ++ StoreCall.bountyUpdate k true :: post →
        StoreCall.differenceUpsert k true ∈ pre) := by
  refine ⟨by decide, ?_⟩
  intro h
  have h1 := h [StoreCall.differenceUpsert "acme" false] "acme" [] (by decide)
  revert h1
  decide

/-- C8, amended: in the persist step every update of the snapshot record of a
project is issued after the change-log upsert for that project has been issued
(all change-log upserts of the batch come before the first snapshot update);
when the change-log upserts succeed, that earlier upsert is a successful one. -/
theorem update_after_log_attempt (links : String → List String)
    (differences : List Difference) (diffOks bountyOks : List Bool) (db : Db)
    (pre post : List StoreCall) (k : String) (ok : Bool)
    (h : (persist links differences diffOks bountyOks db).2
      = pre ++ StoreCall.bountyUpdate k ok :: post) :
    (∃ ok1, StoreCall.differenceUpsert k ok1 ∈ pre) ∧
    ((∀ b ∈ diffOks, b = true) → StoreCall.differenceUpsert k true ∈ pre) := by
  have hA : StoreCall.bountyUpdate k ok ∉ insertIntoDiffTableCalls differences diffOks := by
    intro hmem
    obtain ⟨k1, ok1, he⟩ := mem_insertIntoDiffTableCalls _ _ _ hmem
    cases he
  obtain ⟨hsub, hB⟩ := calls_split _ _ pre post k ok hA h
  obtain ⟨data, hdata, hk⟩ := mem_updateBountiesTableCalls _ _ _ _ hB
  constructor
  · obtain ⟨ok1, hok1⟩ := insertIntoDiffTableCalls_attempt differences diffOks data hdata
    exact ⟨ok1, hk ▸ hsub _ hok1⟩
  · intro hoks
    exact hk ▸ hsub _ (insertIntoDiffTableCalls_ok differences diffOks hoks data hdata)

theorem update_after_log_attempt_witness :
    ∃ ok1, StoreCall.differenceUpsert "acme" ok1 ∈ [StoreCall.differenceUpsert "acme" false] :=
  (update_after_log_attempt (fun _ => ["https://github.com/acme/x"])
    [{ id := "1", project := "acme", existingUpdatedDate := "2024-01-01",
       newUpdatedDate := "2024-02-01", linkDiff := ["https://github.com/acme/x"] }]
    [false] [true]
    { bounties := [{ id := "1", project := "acme", updatedDate := "2024-01-01",
                     assetLinks := [] }],
      differences := [] }
    [StoreCall.differenceUpsert "acme" false] [] "acme" true (by decide)).1

/-- C9 as stated fails: the page source `<html></html>` holds no token, the
fetch with the empty token answers with one bounty, and the cycle seeds the
empty `bounties` collection with it: the store is not what it was before the
cycle. -/
theorem empty_token_cycle_seeds_store :
    extractTokenFromSource "<html></html>" = "" ∧
    (mainCycle
      { fetchSourceCode := some "<html></html>"
        fetchDataUsingToken := fun _ =>
          some [{ id := "1", project := "acme", updatedDate := "2024-01-01", assetLinks := [] }]
        connectToDatabase := true
        links := fun _ => ["https://github.com/acme/x"]
        countOk := true
        inserted := none
        readOk := true
        diffOks := []
        bountyOks := [] }
      { bounties := [], differences := [] })
    = { db := { bounties := [{ id := "1", project := "acme", updatedDate := "2024-01-01",
                               assetLinks := ["https://github.com/acme/x"] }],
                differences := [] }
        log := CycleLog.noDifferencesFound
        sleepMinutes := 10 } ∧
    (mainCycle
      { fetchSourceCode := some "<html></html>"
        fetchDataUsingToken := fun _ =>
          some [{ id := "1", project := "acme", updatedDate := "2024-01-01", assetLinks := [] }]
        connectToDatabase := true
        links := fun _ => ["https://github.com/acme/x"]
        countOk := true
        inserted := none
        readOk := true
        diffOks := []
        bountyOks := [] }
      { bounties := [], differences := [] }).db
    ≠ { bounties := [], differences := [] } := by
  decide

/-- C9, amended: when no token can be extracted from the page source, the second
fetch is made with the empty token.  If that fetch fails, the cycle leaves both
collections as they were; if it answers with a batch, the cycle is the one any
page source gives when the fetch answers with that batch.  In every case the
next cycle begins after a sleep of 10 minutes. -/
theorem missing_token_cycle (env : CycleEnv) (db : Db) (sourceCode : String)
    (hsrc : env.fetchSourceCode = some sourceCode)
    (htoken : extractTokenFromSource sourceCode = "") :
    (env.fetchDataUsingToken "" = none →
      mainCycle env db
        = { db := db, log := CycleLog.errorFetchingDataUsingToken, sleepMinutes := 10 }) ∧
    (∀ bounties sourceCode2, env.fetchDataUsingToken "" = some bounties →
      mainCycle env db
        = mainCycle { env with fetchSourceCode := some sourceCode2
                               fetchDataUsingToken := fun _ => some bounties } db) ∧
    (mainCycle env db).sleepMinutes = 10 := by
  refine ⟨?_, ?_, ?_⟩
  · intro hfail
    simp [mainCycle, hsrc, htoken, hfail]
  · intro bounties sourceCode2 hb
    simp [mainCycle, hsrc, htoken, hb]
  · unfold mainCycle
    simp only []
    split
    · rfl
    · split
      · rfl
      · split
        · rfl
        · split <;> rfl

theorem missing_token_cycle_witness :
    mainCycle
      { fetchSourceCode := some "<html></html>"
        fetchDataUsingToken := fun token =>
          if token = "" then none
          else some [{ id := "1", project := "acme", updatedDate := "d", assetLinks := [] }]
        connectToDatabase := true
        links := fun _ => []
        countOk := true
        inserted := none
        readOk := true
        diffOks := []
        bountyOks := [] }
      { bounties := [], differences := [] }
    = { db := { bounties := [], differences := [] }
        log := CycleLog.errorFetchingDataUsingToken
        sleepMinutes := 10 } :=
  (missing_token_cycle
    { fetchSourceCode := some "<html></html>"
      fetchDataUsingToken := fun token =>
        if token = "" then none
        else some [{ id := "1", project := "acme", updatedDate := "d", assetLinks := [] }]
      connectToDatabase := true
      links := fun _ => []
      countOk := true
      inserted := none
      readOk := true
      diffOks := []
      bountyOks := [] }
    { bounties := [], differences := [] } "<html></html>" rfl (by decide)).1 (by decide)

end Scraper
